import Mathlib

/-!
Verification of the rocPRIM device radix sort specification against the
repository's sources.

The sources in scope are:
* `test/test_rocprim_hip_device_radix_sort.cpp` — the test harness, whose
  `key_comparator` / `key_value_comparator` structs define the reference
  ordering (digit extraction over a bit window `[start_bit, end_bit)`), and
  whose `SortKeys` test defines the contract against `std::stable_sort`;
* `library/rocprim/include/functional.hpp` — scalar helpers, in particular
  `ceiling_div`.

The device-side sort engine itself (`device/device_radix_sort.hpp`) is not
among the sources; following the design document, it is modelled here from
the spec: a multi-pass pipeline over fixed-width digit windows, where each
pass performs histogram → global-offset (exclusive prefix sum with digit
value as major axis and work-group id as minor axis) → stable scatter, and
descending order inverts the bucket index assignment.

Machine integers are modelled as `Nat`; the keys in the tests of interest
are unsigned, and all shift/mask arithmetic in the sources is performed on
values cast to `unsigned long long`, which is value-preserving for them.
-/

namespace RocprimRadixSort

/-! ### Digit extraction and the reference comparators (from the test source) -/

/-- Digit value of key `k` over the bit window `[sb, eb)`: the key shifted
right by `sb` and masked to `eb - sb` bits, exactly as computed inside
`key_comparator::operator()` in the test source
(`(static_cast<unsigned long long>(k) >> StartBit) & ((1ull << (EndBit - StartBit)) - 1)`). -/
def dig (sb eb k : Nat) : Nat :=
  (k >>> sb) &&& ((1 <<< (eb - sb)) - 1)

/-- The general bit-window comparator of the test source
(`key_comparator<Key, Descending, StartBit, EndBit>::operator()`):
extract the digit of both keys over `[sb, eb)` and compare them,
with the comparison flipped in descending mode. -/
def key_comparator (descending : Bool) (sb eb : Nat) (lhs rhs : Nat) : Bool :=
  let mask := (1 <<< (eb - sb)) - 1
  let l := (lhs >>> sb) &&& mask
  let r := (rhs >>> sb) &&& mask
  if descending then decide (r < l) else decide (l < r)

/-- The full-range specialization of the test source
(`key_comparator<Key, Descending, 0, sizeof(Key) * 8>::operator()`):
plain numeric comparison of the whole keys. -/
def key_comparator_full (descending : Bool) (lhs rhs : Nat) : Bool :=
  if descending then decide (rhs < lhs) else decide (lhs < rhs)

/-- The keys+values comparator of the test source (`key_value_comparator`):
only the key (`.1`) contributes to the ordering. -/
def key_value_comparator (descending : Bool) (sb eb : Nat)
    (lhs rhs : Nat × Nat) : Bool :=
  key_comparator descending sb eb lhs.1 rhs.1

theorem dig_eq_mod (sb eb k : Nat) : dig sb eb k = (k >>> sb) % 2 ^ (eb - sb) := by
  simp [dig, Nat.one_shiftLeft, Nat.and_pow_two_sub_one_eq_mod]

theorem dig_lt (sb eb k : Nat) : dig sb eb k < 2 ^ (eb - sb) := by
  rw [dig_eq_mod]
  exact Nat.mod_lt _ (Nat.pos_pow_of_pos _ (by omega))

theorem key_comparator_eq_dig (descending : Bool) (sb eb lhs rhs : Nat) :
    key_comparator descending sb eb lhs rhs =
      (if descending then decide (dig sb eb rhs < dig sb eb lhs)
       else decide (dig sb eb lhs < dig sb eb rhs)) := rfl

/-! ### The device radix sort engine, modelled from the spec -/

/-- Modelled from the spec: the bucket index a pass assigns to digit value
`d` of a `w`-bit window.  Ascending uses the digit itself; descending
"inverts bucket index assignment" (§4.4), i.e. uses `2^w - 1 - d`. -/
def bucketOf (descending : Bool) (w d : Nat) : Nat :=
  if descending then 2 ^ w - 1 - d else d

/-- Modelled from the spec: the net data movement of one
histogram → global-offset → scatter pass (§4.1–§4.3) with `R` buckets and
bucket function `f`.  The offset stage orders output positions with digit
value as the major axis; the scatter stage writes each element, in original
relative order, to the next free slot of its digit's region.  The resulting
array is therefore the concatenation, over bucket values `0, …, R-1`, of
the input elements carrying that bucket value in input order. -/
def scatterPass {α : Type} (R : Nat) (f : α → Nat) (l : List α) : List α :=
  (List.range R).flatMap fun b => l.filter fun x => f x == b

/-- Modelled from the spec: one full histogram → offset → scatter cycle for
the digit window `[sb, sb + w)`, moving whole elements while extracting the
sort key with `key`. -/
def onePass {α : Type} (descending : Bool) (key : α → Nat) (sb w : Nat)
    (l : List α) : List α :=
  scatterPass (2 ^ w) (fun x => bucketOf descending w (dig sb (sb + w) (key x))) l

/-- Modelled from the spec: the pass orchestrator (§4.4).  Starting at bit
`sb`, repeatedly take the next digit window of width `min rw (eb - sb)`
and run one scatter pass over it, until `eb` is reached.  `fuel` bounds the
number of passes (each pass consumes at least one bit when `1 ≤ rw`, so
`eb - sb` passes always suffice). -/
def radixPassesAux {α : Type} (rw : Nat) (descending : Bool) (key : α → Nat)
    (eb : Nat) : Nat → Nat → List α → List α
  | 0, _, l => l
  | fuel + 1, sb, l =>
    if sb < eb then
      radixPassesAux rw descending key eb fuel (sb + min rw (eb - sb))
        (onePass descending key sb (min rw (eb - sb)) l)
    else l

/-- Modelled from the spec: the device radix sort engine
(`device_radix_sort` of `device/device_radix_sort.hpp`, not among the
sources).  `rw` is the implementer-chosen digit window width, `key`
extracts the sort key (identity for keys-only, `Prod.fst` for
keys+values), and `[sb, eb)` is the sorted bit range. -/
def device_radix_sort {α : Type} (rw : Nat) (descending : Bool) (key : α → Nat)
    (sb eb : Nat) (l : List α) : List α :=
  radixPassesAux rw descending key eb (eb - sb) sb l

/-- Modelled from the spec: the implementer-chosen digit window width used
by the concrete entry points, 4 bits (within the 4–8 bit range §2/§9
suggest). -/
def radix_bits : Nat := 4

/-- Modelled from the spec: `rocprim::device_radix_sort_keys` (ascending,
keys only). -/
def device_radix_sort_keys (sb eb : Nat) (l : List Nat) : List Nat :=
  device_radix_sort radix_bits false id sb eb l

/-- Modelled from the spec: `rocprim::device_radix_sort_keys_desc`
(descending, keys only). -/
def device_radix_sort_keys_desc (sb eb : Nat) (l : List Nat) : List Nat :=
  device_radix_sort radix_bits true id sb eb l

/-- Modelled from the spec: the keys+values ascending sort
(`rocprim::device_radix_sort_pairs`); the value is carried along and never
inspected. -/
def device_radix_sort_pairs (sb eb : Nat) (l : List (Nat × Nat)) : List (Nat × Nat) :=
  device_radix_sort radix_bits false Prod.fst sb eb l

example : device_radix_sort_keys 0 8 [5, 3, 5, 1] = [1, 3, 5, 5] := by decide

example : device_radix_sort_keys 0 8 [200, 17, 4, 255, 17, 0] = [0, 4, 17, 17, 200, 255] := by
  decide

example : device_radix_sort_keys_desc 0 8 [5, 3, 5, 1] = [5, 5, 3, 1] := by decide

/-! ### Arithmetic facts about digit windows -/

theorem dig_zero_width (sb k : Nat) : dig sb sb k = 0 := by
  rw [dig_eq_mod]
  simp [Nat.mod_one]

theorem dig_split (sb m w k : Nat) (h : sb ≤ m) :
    dig sb (m + w) k = dig sb m k + 2 ^ (m - sb) * dig m (m + w) k := by
  rw [dig_eq_mod, dig_eq_mod, dig_eq_mod]
  have h1 : m + w - sb = (m - sb) + w := by omega
  have h2 : m + w - m = w := by omega
  rw [h1, h2, pow_add, Nat.mod_mul]
  have h3 : (k >>> sb) / 2 ^ (m - sb) = k >>> m := by
    rw [← Nat.shiftRight_eq_div_pow, ← Nat.shiftRight_add]
    congr 1
    omega
  rw [h3]

theorem dig_window_determined (sb eb m w k : Nat) (h1 : sb ≤ m) (h2 : m + w ≤ eb) :
    dig m (m + w) k = dig sb eb k / 2 ^ (m - sb) % 2 ^ w := by
  rw [dig_eq_mod, dig_eq_mod]
  have he : eb - sb = (m - sb) + (eb - m) := by omega
  rw [he, pow_add, Nat.mod_mul_right_div_self,
    Nat.mod_mod_of_dvd _ (pow_dvd_pow 2 (by omega : w ≤ eb - m))]
  have h4 : m + w - m = w := by omega
  rw [h4]
  congr 1
  rw [← Nat.shiftRight_eq_div_pow, ← Nat.shiftRight_add]
  congr 1
  omega

theorem lex_step {u lx ly hx hy : Nat} (hlxu : lx < 2 ^ u)
    (hcase : hx < hy ∨ (hx = hy ∧ lx < ly)) :
    lx + 2 ^ u * hx < ly + 2 ^ u * hy := by
  rcases hcase with h | ⟨he, hl⟩
  · calc lx + 2 ^ u * hx < 2 ^ u + 2 ^ u * hx := by omega
      _ = 2 ^ u * (hx + 1) := by ring
      _ ≤ 2 ^ u * hy := Nat.mul_le_mul_left _ h
      _ ≤ ly + 2 ^ u * hy := Nat.le_add_left _ _
  · subst he
    omega

theorem bucketOf_lt (descending : Bool) (w d : Nat) (hd : d < 2 ^ w) :
    bucketOf descending w d < 2 ^ w := by
  have hpos : 0 < 2 ^ w := Nat.pos_pow_of_pos w (by omega)
  unfold bucketOf
  cases descending <;> simp <;> omega

theorem bucketOf_lt_iff (descending : Bool) (w : Nat) {d e : Nat}
    (hd : d < 2 ^ w) (he : e < 2 ^ w) :
    bucketOf descending w d < bucketOf descending w e ↔
      (if descending then e < d else d < e) := by
  unfold bucketOf
  cases descending <;> (simp; try omega)

theorem bucketOf_inj (descending : Bool) (w : Nat) {d e : Nat}
    (hd : d < 2 ^ w) (he : e < 2 ^ w)
    (h : bucketOf descending w d = bucketOf descending w e) : d = e := by
  unfold bucketOf at h
  cases descending <;> simp at h <;> omega

/-! ### Elementary facts about one scatter pass -/

theorem flatMap_single {α : Type} (g : Nat → List α) (b0 : Nat) :
    ∀ (bs : List Nat), bs.Nodup → b0 ∈ bs → (∀ b ∈ bs, b ≠ b0 → g b = []) →
      bs.flatMap g = g b0 := by
  intro bs
  induction bs with
  | nil =>
    intro _ hmem _
    exact absurd hmem (List.not_mem_nil _)
  | cons b bs ih =>
    intro hnd hmem hz
    rw [List.flatMap_cons]
    rcases List.mem_cons.mp hmem with hb | hb
    · subst hb
      have hnil : bs.flatMap g = [] := by
        rw [List.flatMap_eq_nil_iff]
        intro x hx
        exact hz x (List.mem_cons_of_mem _ hx)
          (fun he => (List.nodup_cons.mp hnd).1 (he ▸ hx))
      rw [hnil, List.append_nil]
    · have hbne : b ≠ b0 := by
        intro he
        subst he
        exact (List.nodup_cons.mp hnd).1 hb
      rw [hz b (List.mem_cons_self _ _) hbne, List.nil_append]
      exact ih (List.nodup_cons.mp hnd).2 hb
        (fun x hx hne => hz x (List.mem_cons_of_mem _ hx) hne)

theorem scatterPass_nil {α : Type} (R : Nat) (f : α → Nat) :
    scatterPass R f ([] : List α) = [] := by
  unfold scatterPass
  rw [List.flatMap_eq_nil_iff]
  intro b _
  rfl

theorem scatterPass_singleton {α : Type} (R : Nat) (f : α → Nat) (x : α)
    (hx : f x < R) : scatterPass R f [x] = [x] := by
  unfold scatterPass
  rw [flatMap_single _ (f x) _ (List.nodup_range R) (List.mem_range.mpr hx) ?_]
  · simp
  · intro b _ hne
    have : (f x == b) = false := by
      simp only [beq_eq_false_iff_ne]
      exact fun he => hne (he ▸ rfl)
    simp [List.filter_cons, this]

theorem mem_of_mem_scatterPass {α : Type} {R : Nat} {f : α → Nat} {l : List α}
    {a : α} (h : a ∈ scatterPass R f l) : a ∈ l := by
  unfold scatterPass at h
  obtain ⟨b, _, hb⟩ := List.mem_flatMap.mp h
  exact (List.mem_filter.mp hb).1

theorem sum_range_single (R v c : Nat) (hv : v < R) :
    ((List.range R).map fun b => if b = v then c else 0).sum = c := by
  induction R with
  | zero => omega
  | succ R ih =>
    rw [List.range_succ, List.map_append, List.sum_append]
    by_cases h : v < R
    · rw [ih h]
      have : R ≠ v := by omega
      simp [this]
    · have hvR : v = R := by omega
      subst hvR
      have hz : ((List.range v).map fun b => if b = v then c else 0).sum = 0 := by
        apply List.sum_eq_zero
        intro x hx
        obtain ⟨b, hb, he⟩ := List.mem_map.mp hx
        have : b ≠ v := by
          have := List.mem_range.mp hb
          omega
        rw [← he, if_neg this]
      rw [hz]
      simp

theorem count_scatterPass {α : Type} [DecidableEq α] (R : Nat) (f : α → Nat)
    (l : List α) (a : α) (ha : f a < R) :
    (scatterPass R f l).count a = l.count a := by
  unfold scatterPass
  rw [List.count_flatMap]
  have hmap : (List.range R).map (List.count a ∘ fun b => l.filter fun x => f x == b)
      = (List.range R).map fun b => if b = f a then l.count a else 0 := by
    apply List.map_congr_left
    intro b _
    by_cases hba : b = f a
    · subst hba
      simp only [Function.comp_apply]
      rw [List.count_filter (by simp)]
      simp
    · simp only [Function.comp_apply]
      rw [if_neg hba, List.count_eq_zero.mpr]
      intro hmem
      have hbeq : (f a == b) = true := (List.mem_filter.mp hmem).2
      exact hba (eq_of_beq hbeq).symm
  rw [hmap, sum_range_single R (f a) _ ha]

theorem scatterPass_perm {α : Type} [DecidableEq α] (R : Nat) (f : α → Nat)
    (l : List α) (h : ∀ x ∈ l, f x < R) : (scatterPass R f l).Perm l := by
  rw [List.perm_iff_count]
  intro a
  by_cases ha : a ∈ l
  · exact count_scatterPass R f l a (h a ha)
  · rw [List.count_eq_zero.mpr ha, List.count_eq_zero.mpr]
    intro hmem
    exact ha (mem_of_mem_scatterPass hmem)

theorem scatterPass_pairwise {α : Type} {S : α → α → Prop} (R : Nat) (f : α → Nat)
    {l : List α} (h : l.Pairwise S) :
    (scatterPass R f l).Pairwise fun x y => f x < f y ∨ (f x = f y ∧ S x y) := by
  unfold scatterPass
  rw [List.pairwise_flatMap]
  constructor
  · intro b _
    have hsub : (l.filter fun x => f x == b).Pairwise S :=
      List.Pairwise.sublist (List.filter_sublist l) h
    refine hsub.imp_of_mem ?_
    intro x y hx hy hS
    right
    have hfx : f x = b := by simpa using (List.mem_filter.mp hx).2
    have hfy : f y = b := by simpa using (List.mem_filter.mp hy).2
    exact ⟨hfx.trans hfy.symm, hS⟩
  · refine (List.pairwise_lt_range R).imp ?_
    intro b1 b2 hlt x hx y hy
    left
    have hfx : f x = b1 := by simpa using (List.mem_filter.mp hx).2
    have hfy : f y = b2 := by simpa using (List.mem_filter.mp hy).2
    omega

theorem scatterPass_filter_eq {α : Type} (R : Nat) (f : α → Nat) (p : α → Bool)
    (l : List α) (hconst : ∀ x y, p x → p y → f x = f y)
    (hlt : ∀ x, p x → f x < R) :
    (scatterPass R f l).filter p = l.filter p := by
  unfold scatterPass
  rw [List.filter_flatMap]
  by_cases hex : ∃ x ∈ l, p x
  · obtain ⟨x0, hx0l, hx0p⟩ := hex
    have key : ∀ b ∈ List.range R, b ≠ f x0 →
        (List.filter p (l.filter fun x => f x == b)) = [] := by
      intro b _ hne
      rw [List.filter_eq_nil_iff]
      intro a hmem hpa
      have hfb : f a = b := by simpa using (List.mem_filter.mp hmem).2
      exact hne (hfb ▸ hconst a x0 hpa hx0p)
    rw [flatMap_single _ (f x0) _ (List.nodup_range R)
      (List.mem_range.mpr (hlt x0 hx0p)) key, List.filter_filter]
    apply List.filter_congr
    intro a _
    by_cases hpa : p a
    · simp [hpa, hconst a x0 hpa hx0p]
    · simp [hpa]
  · push_neg at hex
    have h1 : l.filter p = [] := List.filter_eq_nil_iff.mpr hex
    rw [h1, List.flatMap_eq_nil_iff]
    intro b _
    rw [List.filter_eq_nil_iff]
    intro a hmem
    exact hex a (List.mem_filter.mp hmem).1

/-! ### Multi-pass lemmas for the orchestrator -/

theorem pairwise_of_forall {α : Type} {R : α → α → Prop} (h : ∀ x y, R x y) :
    ∀ (l : List α), l.Pairwise R := by
  intro l
  induction l with
  | nil => exact List.Pairwise.nil
  | cons a l ih => exact List.Pairwise.cons (fun y _ => h a y) ih

theorem radixPassesAux_succ {α : Type} (rbits : Nat) (descending : Bool)
    (key : α → Nat) (eb fuel sb : Nat) (l : List α) :
    radixPassesAux rbits descending key eb (fuel + 1) sb l =
      if sb < eb then
        radixPassesAux rbits descending key eb fuel (sb + min rbits (eb - sb))
          (onePass descending key sb (min rbits (eb - sb)) l)
      else l := rfl

theorem dig_window_lt (sb w k : Nat) : dig sb (sb + w) k < 2 ^ w := by
  have h := dig_lt sb (sb + w) k
  rwa [Nat.add_sub_cancel_left] at h

theorem onePass_perm {α : Type} [DecidableEq α] (descending : Bool) (key : α → Nat)
    (sb w : Nat) (l : List α) : (onePass descending key sb w l).Perm l :=
  scatterPass_perm _ _ _ fun x _ => bucketOf_lt _ _ _ (dig_window_lt sb w (key x))

theorem radixPassesAux_perm {α : Type} [DecidableEq α] (rbits : Nat)
    (descending : Bool) (key : α → Nat) (eb : Nat) :
    ∀ (fuel sb : Nat) (l : List α),
      (radixPassesAux rbits descending key eb fuel sb l).Perm l := by
  intro fuel
  induction fuel with
  | zero =>
    intro sb l
    exact List.Perm.refl l
  | succ fuel ih =>
    intro sb l
    rw [radixPassesAux_succ]
    by_cases h : sb < eb
    · rw [if_pos h]
      exact (ih _ _).trans (onePass_perm _ _ _ _ _)
    · rw [if_neg h]

theorem radixPassesAux_pairwise {α : Type} {S : α → α → Prop} (rbits : Nat)
    (hrbits : 1 ≤ rbits) (descending : Bool) (key : α → Nat) (sb0 eb : Nat) :
    ∀ (fuel m : Nat) (l : List α), sb0 ≤ m → m ≤ eb → eb - m ≤ fuel →
      l.Pairwise (fun x y =>
        (if descending then dig sb0 m (key y) < dig sb0 m (key x)
         else dig sb0 m (key x) < dig sb0 m (key y))
        ∨ (dig sb0 m (key x) = dig sb0 m (key y) ∧ S x y)) →
      (radixPassesAux rbits descending key eb fuel m l).Pairwise (fun x y =>
        (if descending then dig sb0 eb (key y) < dig sb0 eb (key x)
         else dig sb0 eb (key x) < dig sb0 eb (key y))
        ∨ (dig sb0 eb (key x) = dig sb0 eb (key y) ∧ S x y)) := by
  intro fuel
  induction fuel with
  | zero =>
    intro m l h1 h2 h3 hp
    have hme : m = eb := by omega
    subst hme
    exact hp
  | succ fuel ih =>
    intro m l h1 h2 h3 hp
    rw [radixPassesAux_succ]
    by_cases h : m < eb
    · rw [if_pos h]
      have hw1 : 1 ≤ min rbits (eb - m) := by omega
      have hweb : m + min rbits (eb - m) ≤ eb := by omega
      refine ih (m + min rbits (eb - m)) _ (by omega) hweb (by omega) ?_
      have hpass := scatterPass_pairwise (2 ^ min rbits (eb - m))
        (fun x => bucketOf descending (min rbits (eb - m))
          (dig m (m + min rbits (eb - m)) (key x))) hp
      refine hpass.imp ?_
      intro x y hxy
      have hbx := dig_window_lt m (min rbits (eb - m)) (key x)
      have hby := dig_window_lt m (min rbits (eb - m)) (key y)
      have hlx := dig_lt sb0 m (key x)
      have hly := dig_lt sb0 m (key y)
      have hsx := dig_split sb0 m (min rbits (eb - m)) (key x) h1
      have hsy := dig_split sb0 m (min rbits (eb - m)) (key y) h1
      rcases hxy with hlt | ⟨heq, hprev⟩
      · -- buckets strictly increase: the new (high) digits decide
        rw [bucketOf_lt_iff descending _ hbx hby] at hlt
        left
        cases descending with
        | false =>
          simp only [Bool.false_eq_true, if_false] at hlt ⊢
          rw [hsx, hsy]
          exact lex_step hlx (Or.inl (by simpa using hlt))
        | true =>
          simp only [if_true] at hlt ⊢
          rw [hsx, hsy]
          exact lex_step hly (Or.inl (by simpa using hlt))
      · -- equal buckets: the new digits agree, the previous relation decides
        have hNeq : dig m (m + min rbits (eb - m)) (key x)
            = dig m (m + min rbits (eb - m)) (key y) :=
          bucketOf_inj descending _ hbx hby heq
        rcases hprev with hord | ⟨hdeq, hS⟩
        · left
          cases descending with
          | false =>
            simp only [Bool.false_eq_true, if_false] at hord ⊢
            rw [hsx, hsy]
            exact lex_step hlx (Or.inr ⟨by rw [hNeq], hord⟩)
          | true =>
            simp only [if_true] at hord ⊢
            rw [hsx, hsy]
            exact lex_step hly (Or.inr ⟨by rw [hNeq], hord⟩)
        · right
          refine ⟨?_, hS⟩
          rw [hsx, hsy, hdeq, hNeq]
    · rw [if_neg h]
      have hme : m = eb := by omega
      subst hme
      exact hp

theorem radixPassesAux_filter {α : Type} (rbits : Nat) (descending : Bool)
    (key : α → Nat) (sb eb d : Nat) :
    ∀ (fuel m : Nat) (l : List α), sb ≤ m →
      (radixPassesAux rbits descending key eb fuel m l).filter
          (fun z => dig sb eb (key z) == d)
        = l.filter (fun z => dig sb eb (key z) == d) := by
  intro fuel
  induction fuel with
  | zero =>
    intro m l _
    rfl
  | succ fuel ih =>
    intro m l h1
    rw [radixPassesAux_succ]
    by_cases h : m < eb
    · rw [if_pos h, ih (m + min rbits (eb - m)) _ (by omega)]
      apply scatterPass_filter_eq
      · intro x y hx hy
        have hdx : dig sb eb (key x) = d := eq_of_beq hx
        have hdy : dig sb eb (key y) = d := eq_of_beq hy
        have hwin : dig m (m + min rbits (eb - m)) (key x)
            = dig m (m + min rbits (eb - m)) (key y) := by
          rw [dig_window_determined sb eb m _ _ h1 (by omega),
            dig_window_determined sb eb m _ _ h1 (by omega), hdx, hdy]
        rw [hwin]
      · intro x _
        exact bucketOf_lt _ _ _ (dig_window_lt m _ (key x))
    · rw [if_neg h]

/-! ### Work-group partitioning (for the boundary behavior claim) -/

/-- Modelled from the spec: the partition of a work-groups' input into
consecutive partitions of `g + 1` elements each (the `g + 1` form covers
every positive group size while keeping the recursion well-founded). -/
def chunksOf {α : Type} (g : Nat) : List α → List (List α)
  | [] => []
  | x :: xs => (x :: xs.take g) :: chunksOf g (xs.drop g)
  termination_by l => l.length
  decreasing_by
    simp only [List.length_drop, List.length_cons]
    omega

theorem chunksOf_flatten_aux {α : Type} (g : Nat) :
    ∀ (n : Nat) (l : List α), l.length ≤ n → (chunksOf g l).flatten = l := by
  intro n
  induction n with
  | zero =>
    intro l hl
    cases l with
    | nil =>
      rw [chunksOf]
      rfl
    | cons x xs => simp at hl
  | succ n ih =>
    intro l hl
    cases l with
    | nil =>
      rw [chunksOf]
      rfl
    | cons x xs =>
      have hlen : (xs.drop g).length ≤ n := by
        rw [List.length_drop]
        simp only [List.length_cons] at hl
        omega
      rw [chunksOf, List.flatten_cons, ih (xs.drop g) hlen, List.cons_append,
        List.take_append_drop]

theorem chunksOf_flatten {α : Type} (g : Nat) (l : List α) :
    (chunksOf g l).flatten = l :=
  chunksOf_flatten_aux g l.length l (le_refl _)

/-- Modelled from the spec: one pass with explicit work-group partitioning
(§4.1–§4.3): each work-group histograms and scatters its own partition of
the input, and the offset stage interleaves counts with digit value as the
major axis and work-group id as the minor axis, so the output region of
each digit value holds group 0's elements of that digit, then group 1's,
each in original partition order. -/
def scatterPassGrouped {α : Type} (g R : Nat) (f : α → Nat) (l : List α) : List α :=
  (List.range R).flatMap fun b =>
    (chunksOf g l).flatMap fun c => c.filter fun x => f x == b

/-- Modelled from the spec: one full grouped pass over the digit window
`[sb, sb + w)`. -/
def onePassGrouped {α : Type} (g : Nat) (descending : Bool) (key : α → Nat)
    (sb w : Nat) (l : List α) : List α :=
  scatterPassGrouped g (2 ^ w)
    (fun x => bucketOf descending w (dig sb (sb + w) (key x))) l

/-- Modelled from the spec: the orchestrator running grouped passes. -/
def radixPassesGroupedAux {α : Type} (g rw : Nat) (descending : Bool)
    (key : α → Nat) (eb : Nat) : Nat → Nat → List α → List α
  | 0, _, l => l
  | fuel + 1, sb, l =>
    if sb < eb then
      radixPassesGroupedAux g rw descending key eb fuel (sb + min rw (eb - sb))
        (onePassGrouped g descending key sb (min rw (eb - sb)) l)
    else l

/-- Modelled from the spec: the device radix sort engine with the
work-group size made explicit (`g + 1` elements per work-group). -/
def device_radix_sort_grouped {α : Type} (g rw : Nat) (descending : Bool)
    (key : α → Nat) (sb eb : Nat) (l : List α) : List α :=
  radixPassesGroupedAux g rw descending key eb (eb - sb) sb l

theorem radixPassesGroupedAux_succ {α : Type} (g rbits : Nat) (descending : Bool)
    (key : α → Nat) (eb fuel sb : Nat) (l : List α) :
    radixPassesGroupedAux g rbits descending key eb (fuel + 1) sb l =
      if sb < eb then
        radixPassesGroupedAux g rbits descending key eb fuel (sb + min rbits (eb - sb))
          (onePassGrouped g descending key sb (min rbits (eb - sb)) l)
      else l := rfl

theorem chunks_flatMap_filter {α : Type} (g : Nat) (p : α → Bool) (l : List α) :
    ((chunksOf g l).flatMap fun c => c.filter p) = l.filter p := by
  have h1 : ((chunksOf g l).flatMap fun c => c.filter p)
      = ((chunksOf g l).map fun c => c.filter p).flatten := rfl
  rw [h1, ← List.filter_flatten, chunksOf_flatten]

theorem scatterPassGrouped_eq {α : Type} (g R : Nat) (f : α → Nat) (l : List α) :
    scatterPassGrouped g R f l = scatterPass R f l := by
  unfold scatterPassGrouped scatterPass
  congr 1
  funext b
  exact chunks_flatMap_filter g _ l

theorem onePassGrouped_eq {α : Type} (g : Nat) (descending : Bool) (key : α → Nat)
    (sb w : Nat) (l : List α) :
    onePassGrouped g descending key sb w l = onePass descending key sb w l :=
  scatterPassGrouped_eq g _ _ l

theorem radixPassesGroupedAux_eq {α : Type} (g rbits : Nat) (descending : Bool)
    (key : α → Nat) (eb : Nat) :
    ∀ (fuel sb : Nat) (l : List α),
      radixPassesGroupedAux g rbits descending key eb fuel sb l
        = radixPassesAux rbits descending key eb fuel sb l := by
  intro fuel
  induction fuel with
  | zero =>
    intro sb l
    rfl
  | succ fuel ih =>
    intro sb l
    rw [radixPassesGroupedAux_succ, radixPassesAux_succ]
    by_cases h : sb < eb
    · rw [if_pos h, if_pos h, onePassGrouped_eq, ih]
    · rw [if_neg h, if_neg h]

theorem radixPassesAux_nil {α : Type} (rbits : Nat) (descending : Bool)
    (key : α → Nat) (eb : Nat) :
    ∀ (fuel sb : Nat),
      radixPassesAux rbits descending key eb fuel sb ([] : List α) = [] := by
  intro fuel
  induction fuel with
  | zero =>
    intro sb
    rfl
  | succ fuel ih =>
    intro sb
    rw [radixPassesAux_succ]
    by_cases h : sb < eb
    · rw [if_pos h]
      unfold onePass
      rw [scatterPass_nil]
      exact ih _
    · rw [if_neg h]

theorem radixPassesAux_singleton {α : Type} (rbits : Nat) (descending : Bool)
    (key : α → Nat) (eb : Nat) (x : α) :
    ∀ (fuel sb : Nat),
      radixPassesAux rbits descending key eb fuel sb [x] = [x] := by
  intro fuel
  induction fuel with
  | zero =>
    intro sb
    rfl
  | succ fuel ih =>
    intro sb
    rw [radixPassesAux_succ]
    by_cases h : sb < eb
    · rw [if_pos h]
      unfold onePass
      rw [scatterPass_singleton (2 ^ min rbits (eb - sb))
        (fun y => bucketOf descending (min rbits (eb - sb))
          (dig sb (sb + min rbits (eb - sb)) (key y))) x
        (bucketOf_lt _ _ _ (dig_window_lt _ _ _))]
      exact ih _
    · rw [if_neg h]

/-! ### The claims -/

/-- C1: for every input array, ascending/descending mode, and bit range
`[start_bit, end_bit)`, the output of the device radix sort is ordered as
the reference comparator requires: non-decreasing (ascending) or
non-increasing (descending) under the digit value extracted from the key's
bits `[start_bit, end_bit)` — the key shifted right by `start_bit` and
masked to `end_bit - start_bit` bits — with natural numeric ordering of
that digit.  `rbits` is the engine's digit-window width (any positive
choice). -/
theorem device_radix_sort_order_property (rbits : Nat) (hrbits : 1 ≤ rbits)
    (descending : Bool) (sb eb : Nat) (l : List Nat) :
    (device_radix_sort rbits descending id sb eb l).Pairwise fun a b =>
      if descending then dig sb eb b ≤ dig sb eb a
      else dig sb eb a ≤ dig sb eb b := by
  unfold device_radix_sort
  by_cases hse : sb ≤ eb
  · have hbase : l.Pairwise fun x y =>
        (if descending then dig sb sb (id y) < dig sb sb (id x)
         else dig sb sb (id x) < dig sb sb (id y))
        ∨ (dig sb sb (id x) = dig sb sb (id y) ∧ True) := by
      apply pairwise_of_forall
      intro x y
      right
      exact ⟨by rw [dig_zero_width, dig_zero_width], trivial⟩
    have hmain := radixPassesAux_pairwise (S := fun _ _ => True) rbits hrbits
      descending id sb eb (eb - sb) sb l (le_refl sb) hse (by omega) hbase
    refine hmain.imp ?_
    intro x y hxy
    cases descending
    · simp only [Bool.false_eq_true, if_false, id_eq] at hxy ⊢
      rcases hxy with h | ⟨h, _⟩ <;> omega
    · simp only [if_true, id_eq] at hxy ⊢
      rcases hxy with h | ⟨h, _⟩ <;> omega
  · have h0 : eb - sb = 0 := by omega
    rw [h0]
    apply pairwise_of_forall
    intro x y
    have hx : dig sb eb x = 0 := by
      rw [dig_eq_mod, h0]
      simp [Nat.mod_one]
    have hy : dig sb eb y = 0 := by
      rw [dig_eq_mod, h0]
      simp [Nat.mod_one]
    cases descending <;> simp [hx, hy]

/-- Witness for C1: the hypothesis `1 ≤ rbits` holds at `rbits = 4`, and the
order property is realized on a concrete ascending sort over the full 8-bit
range. -/
theorem device_radix_sort_order_property_witness :
    1 ≤ 4 ∧
      (device_radix_sort 4 false id 0 8 [200, 17, 4, 255, 17, 0]).Pairwise fun a b =>
        if false then dig 0 8 b ≤ dig 0 8 a else dig 0 8 a ≤ dig 0 8 b :=
  ⟨by decide, device_radix_sort_order_property 4 (by decide) false 0 8 [200, 17, 4, 255, 17, 0]⟩

/-- C2: for every input array (any element type, any key extraction, any
mode, any bit range, any digit width), the output of the device radix sort
is a permutation of the input: the multiset of output elements equals the
multiset of input elements — no element lost, duplicated, or corrupted. -/
theorem device_radix_sort_permutation_property {α : Type} (rbits : Nat)
    (descending : Bool) (key : α → Nat) (sb eb : Nat) (l : List α) :
    (device_radix_sort rbits descending key sb eb l).Perm l ∧
      (device_radix_sort rbits descending key sb eb l : Multiset α) = (l : Multiset α) := by
  haveI := Classical.decEq α
  have h := radixPassesAux_perm rbits descending key eb (eb - sb) sb l
  exact ⟨h, Multiset.coe_eq_coe.mpr h⟩

/-- C3: the sort is stable on keys+values inputs — whenever two (key, value)
elements have equal digit value over `[start_bit, end_bit)` and appear in a
given relative order in the input (expressed as `[x, y]` being a sublist of
the input), they appear in the same relative order, unchanged, in the
output; only the key (`Prod.fst`) contributes to the ordering and the value
is carried along intact. -/
theorem device_radix_sort_stability_property (rbits : Nat) (descending : Bool)
    (sb eb : Nat) (l : List (Nat × Nat)) (x y : Nat × Nat)
    (hd : dig sb eb x.1 = dig sb eb y.1)
    (hxy : [x, y].Sublist l) :
    [x, y].Sublist (device_radix_sort rbits descending Prod.fst sb eb l) := by
  unfold device_radix_sort
  have hfix := radixPassesAux_filter rbits descending Prod.fst sb eb
    (dig sb eb x.1) (eb - sb) sb l (le_refl sb)
  have h1 : ([x, y].filter fun z => dig sb eb z.1 == dig sb eb x.1) = [x, y] := by
    simp [List.filter_cons, hd]
  have s1 : List.Sublist ([x, y].filter fun z => dig sb eb z.1 == dig sb eb x.1)
      (l.filter fun z => dig sb eb z.1 == dig sb eb x.1) :=
    List.Sublist.filter _ hxy
  rw [h1, ← hfix] at s1
  exact s1.trans (List.filter_sublist _)

/-- Witness for C3: the two keys `5` (values `0` and `2`) of the C4 scenario
have equal full-range digits and appear as `[(5,0), (5,2)]` in the input;
the theorem places them in that order in the output, as evaluation
confirms. -/
theorem device_radix_sort_stability_property_witness :
    dig 0 8 (5, 0).1 = dig 0 8 (5, 2).1 ∧
      [(5, 0), (5, 2)].Sublist [(5, 0), (3, 1), (5, 2), (1, 3)] ∧
      [(5, 0), (5, 2)].Sublist
        (device_radix_sort 4 false Prod.fst 0 8 [(5, 0), (3, 1), (5, 2), (1, 3)]) :=
  ⟨rfl, by decide,
    device_radix_sort_stability_property 4 false 0 8
      [(5, 0), (3, 1), (5, 2), (1, 3)] (5, 0) (5, 2) rfl (by decide)⟩

/-- C4: the concrete scenario — unsigned 8-bit keys `[5, 3, 5, 1]` with
identity values `[A, B, C, D]` encoded as `[0, 1, 2, 3]`, full bit range,
ascending — yields output keys `[1, 3, 5, 5]` and value sequence
`[D, B, A, C]` = `[3, 1, 0, 2]`: the two `5`s keep their original relative
order. -/
theorem device_radix_sort_scenario_pairs :
    device_radix_sort_pairs 0 8 [(5, 0), (3, 1), (5, 2), (1, 3)]
        = [(1, 3), (3, 1), (5, 0), (5, 2)] ∧
      (device_radix_sort_pairs 0 8 [(5, 0), (3, 1), (5, 2), (1, 3)]).map Prod.fst
        = [1, 3, 5, 5] ∧
      (device_radix_sort_pairs 0 8 [(5, 0), (3, 1), (5, 2), (1, 3)]).map Prod.snd
        = [3, 1, 0, 2] := by
  decide

/-- C5: the concrete scenario — two-element input
`[0b10101100, 0b01011100]`, ascending, restricted to bits `[4, 8)` — has
extracted digit values `10` and `5`, so the second input element is placed
before the first in the output even though its full key value is smaller. -/
theorem device_radix_sort_scenario_nibble :
    dig 4 8 0b10101100 = 10 ∧ dig 4 8 0b01011100 = 5 ∧
      device_radix_sort_keys 4 8 [0b10101100, 0b01011100]
        = [0b01011100, 0b10101100] := by
  decide

/-- C6: for every bit range `[start_bit, end_bit)` and every pair of
(unsigned) keys `a, b`, the descending reference comparator applied to
`(a, b)` yields exactly the ascending reference comparator applied to
`(b, a)`: both order variants are one digit-extraction engine with the
comparison inverted. -/
theorem key_comparator_desc_eq_asc_swapped (sb eb a b : Nat) :
    key_comparator true sb eb a b = key_comparator false sb eb b a := rfl

/-- C7: for keys of bit width `w`, the general bit-window comparator at the
defaulted full-width range `start_bit = 0`, `end_bit = w` — which shifts by
`start_bit` and masks to `end_bit - start_bit` bits — agrees with the plain
whole-key comparison of the full-range specialization, so the defaulted
sort is a whole-key sort. -/
theorem key_comparator_default_is_whole_key (w : Nat) (descending : Bool)
    (a b : Nat) (ha : a < 2 ^ w) (hb : b < 2 ^ w) :
    key_comparator descending 0 w a b = key_comparator_full descending a b := by
  rw [key_comparator_eq_dig]
  have hda : dig 0 w a = a := by
    rw [dig_eq_mod, Nat.shiftRight_zero, Nat.sub_zero, Nat.mod_eq_of_lt ha]
  have hdb : dig 0 w b = b := by
    rw [dig_eq_mod, Nat.shiftRight_zero, Nat.sub_zero, Nat.mod_eq_of_lt hb]
  rw [hda, hdb]
  rfl

/-- Witness for C7: at width 8, the keys 200 and 17 are in range, and the
defaulted comparator agrees with whole-key comparison on them. -/
theorem key_comparator_default_is_whole_key_witness :
    200 < 2 ^ 8 ∧ 17 < 2 ^ 8 ∧
      key_comparator false 0 8 200 17 = key_comparator_full false 200 17 :=
  ⟨by decide, by decide,
    key_comparator_default_is_whole_key 8 false 200 17 (by decide) (by decide)⟩

/-- C8: element counts 0 and 1 are valid inputs and return the input
unchanged (trivially sorted); and for every fixed input content the result
does not depend on the work-group partitioning — the engine with any
explicit work-group size (`g + 1` elements per group, so one group for
small inputs and many groups for large ones) produces exactly the same
output as the engine processing the input as a single partition. -/
theorem device_radix_sort_boundary_and_workgroups {α : Type} (rbits : Nat)
    (descending : Bool) (key : α → Nat) (sb eb : Nat) :
    device_radix_sort rbits descending key sb eb ([] : List α) = [] ∧
      (∀ x : α, device_radix_sort rbits descending key sb eb [x] = [x]) ∧
      (∀ (g : Nat) (l : List α),
        device_radix_sort_grouped g rbits descending key sb eb l
          = device_radix_sort rbits descending key sb eb l) :=
  ⟨radixPassesAux_nil rbits descending key eb (eb - sb) sb,
    fun x => radixPassesAux_singleton rbits descending key eb x (eb - sb) sb,
    fun g l => radixPassesGroupedAux_eq g rbits descending key eb (eb - sb) sb l⟩

/-- Modelled from the spec: the two distinguishable failure conditions the
sort reports (§7): a configuration failure ("fix your call") and an
execution failure ("device/runtime trouble"). -/
inductive SortFailure : Type
  | config : SortFailure
  | execution : SortFailure

/-- Modelled from the spec: the host-side execute entry point of the device
radix sort (`device/device_radix_sort.hpp`, not among the sources).  The
configuration — the bit range must satisfy `start_bit < end_bit ≤ width`
and the supplied temporary storage must be at least what the preceding size
query reported — is validated synchronously on the host before any device
work is issued; a failure of the device work itself (launch failure,
allocation exhaustion — modelled by the `deviceOk` flag) is surfaced as an
execution failure, with no internal retry. -/
def device_radix_sort_execute (width sb eb tempBytes requiredBytes : Nat)
    (deviceOk : Bool) (rw : Nat) (descending : Bool) (l : List Nat) :
    Except SortFailure (List Nat) :=
  if eb ≤ sb ∨ width < eb ∨ tempBytes < requiredBytes then
    Except.error SortFailure.config
  else if deviceOk then
    Except.ok (device_radix_sort rw descending id sb eb l)
  else
    Except.error SortFailure.execution

/-- C9: the sort call reports the distinguishable configuration-failure
condition exactly when `end_bit ≤ start_bit`, or `end_bit` exceeds the
key's bit width, or the execute call is given a temporary-storage size
smaller than what the preceding size query reported; in every other case
the call either succeeds or surfaces the device failure as an execution
failure — never a configuration failure and never an internal retry. -/
theorem device_radix_sort_execute_config_iff (width sb eb tempBytes requiredBytes : Nat)
    (deviceOk : Bool) (rbits : Nat) (descending : Bool) (l : List Nat) :
    (device_radix_sort_execute width sb eb tempBytes requiredBytes deviceOk rbits
          descending l = Except.error SortFailure.config
        ↔ (eb ≤ sb ∨ width < eb ∨ tempBytes < requiredBytes)) ∧
      (¬(eb ≤ sb ∨ width < eb ∨ tempBytes < requiredBytes) →
        device_radix_sort_execute width sb eb tempBytes requiredBytes deviceOk rbits
            descending l
          = if deviceOk then
              Except.ok (device_radix_sort rbits descending id sb eb l)
            else Except.error SortFailure.execution) := by
  unfold device_radix_sort_execute
  by_cases h : eb ≤ sb ∨ width < eb ∨ tempBytes < requiredBytes
  · rw [if_pos h]
    exact ⟨⟨fun _ => h, fun _ => rfl⟩, fun hn => absurd h hn⟩
  · rw [if_neg h]
    refine ⟨⟨fun he => ?_, fun hh => absurd hh h⟩, fun _ => rfl⟩
    cases deviceOk with
    | true => simp at he
    | false => simp at he

/-- Witness for C9 at a concrete valid configuration: width 32, bit range
`[0, 8)`, storage 100 against a reported requirement of 50. -/
theorem device_radix_sort_execute_config_iff_witness :
    (device_radix_sort_execute 32 0 8 100 50 true 4 false [3, 1]
        = Except.error SortFailure.config ↔ (8 ≤ 0 ∨ 32 < 8 ∨ 100 < 50)) ∧
      (¬(8 ≤ 0 ∨ 32 < 8 ∨ 100 < 50) →
        device_radix_sort_execute 32 0 8 100 50 true 4 false [3, 1]
          = if true then Except.ok (device_radix_sort 4 false id 0 8 [3, 1])
            else Except.error SortFailure.execution) :=
  device_radix_sort_execute_config_iff 32 0 8 100 50 true 4 false [3, 1]

/-! ### `ceiling_div` from `functional.hpp` -/

/-- `rocprim::ceiling_div` of `functional.hpp`: `(a + b - 1) / b` on an
integral type, here over `Nat` (the mathematical value, no overflow). -/
def ceiling_div (a b : Nat) : Nat := (a + b - 1) / b

/-- `ceiling_div` as evaluated in `w`-bit unsigned machine arithmetic:
every intermediate of `(a + b - 1) / b` is reduced modulo `2^w`, the
subtraction of 1 wrapping to an addition of `2^w - 1`. -/
def ceiling_div_wrap (w a b : Nat) : Nat :=
  ((a % 2 ^ w + b % 2 ^ w) % 2 ^ w + (2 ^ w - 1)) % 2 ^ w / (b % 2 ^ w)

/-- C10: for `b > 0` with `a`, `b` representable in `w` bits and `a + b - 1`
representable without overflow, `ceiling_div a b` is the least `n` with
`n * b ≥ a` (the ceiling of `a / b`) and the `w`-bit evaluation agrees with
it; the `w`-bit evaluation always computes `((a + b - 1) mod 2^w) / b`,
which can differ from the mathematical ceiling when `a + b - 1` overflows —
at `w = 8`, `a = 255`, `b = 2` the wrapped value differs from the true
ceiling `128`. -/
theorem ceiling_div_spec (w a b : Nat) (hb : 0 < b) (ha : a < 2 ^ w)
    (hbw : b < 2 ^ w) (hrep : a + b - 1 < 2 ^ w) :
    (a ≤ ceiling_div a b * b ∧ ∀ n, a ≤ n * b → ceiling_div a b ≤ n) ∧
      ceiling_div_wrap w a b = (a + b - 1) % 2 ^ w / b ∧
      ceiling_div_wrap w a b = ceiling_div a b ∧
      ceiling_div_wrap 8 255 2 ≠ ceiling_div 255 2 := by
  have hM : 0 < 2 ^ w := Nat.pos_pow_of_pos _ (by omega)
  have hwrap : ceiling_div_wrap w a b = (a + b - 1) % 2 ^ w / b := by
    unfold ceiling_div_wrap
    rw [Nat.mod_eq_of_lt ha, Nat.mod_eq_of_lt hbw]
    have h5 : (2 ^ w - 1) % 2 ^ w = 2 ^ w - 1 := Nat.mod_eq_of_lt (by omega)
    have h4 : ((a + b) % 2 ^ w + (2 ^ w - 1)) % 2 ^ w = (a + b - 1) % 2 ^ w := by
      conv_lhs => rw [← h5]
      rw [← Nat.add_mod]
      have e1 : a + b + (2 ^ w - 1) = (a + b - 1) + 2 ^ w := by omega
      rw [e1, Nat.add_mod_right]
    rw [h4]
  refine ⟨⟨?_, ?_⟩, hwrap, ?_, by decide⟩
  · unfold ceiling_div
    have h := Nat.div_add_mod (a + b - 1) b
    have hr := Nat.mod_lt (a + b - 1) hb
    rw [Nat.mul_comm]
    omega
  · intro n hn
    unfold ceiling_div
    have h2 : a + b - 1 < (n + 1) * b := by
      have h3 : (n + 1) * b = n * b + b := by ring
      omega
    have h6 := (Nat.div_lt_iff_lt_mul hb).mpr h2
    omega
  · rw [hwrap, Nat.mod_eq_of_lt hrep]
    rfl

/-- Witness for C10 at `w = 8`, `a = 10`, `b = 3`: all representability
hypotheses hold and `ceiling_div` is the true ceiling `4`. -/
theorem ceiling_div_spec_witness :
    0 < 3 ∧ 10 < 2 ^ 8 ∧ 3 < 2 ^ 8 ∧ 10 + 3 - 1 < 2 ^ 8 ∧
      ((10 ≤ ceiling_div 10 3 * 3 ∧ ∀ n, 10 ≤ n * 3 → ceiling_div 10 3 ≤ n) ∧
        ceiling_div_wrap 8 10 3 = (10 + 3 - 1) % 2 ^ 8 / 3 ∧
        ceiling_div_wrap 8 10 3 = ceiling_div 10 3 ∧
        ceiling_div_wrap 8 255 2 ≠ ceiling_div 255 2) :=
  ⟨by decide, by decide, by decide, by decide,
    ceiling_div_spec 8 10 3 (by decide) (by decide) (by decide) (by decide)⟩

end RocprimRadixSort
